import Mathlib

/-!
# Search & filter engine of the claude-code-features showcase site

Shallow embedding of the algorithmic core of the repository:

* `Utils.fuzzySearch`               (src/js/utils/utils.js, lines 277-303)
* `DataService.searchFeatures`      (data service, lines 146-228)
* `DataService.calculateFuzzyScore` (data service, lines 233-250)
* `DataService.filterFeatures`      (data service, lines 255-283)
* `DocumentSearch.addToSearchHistory` (src/js/components/documentSearch.js,
  lines 540-551)

Modelling conventions:

* JS numbers are modelled as exact rationals (`ℚ`).  The constants of the
  scoring code are decimal literals and its integer arithmetic is exact in
  binary64, but the division in the substring branch of `fuzzySearch` is
  not: its binary64 result can differ from the exact rational value by a
  few ulps (notably, at `haystack.length = 3 * needle.length` the rational
  substring score is exactly `0.6` while binary64 gives one ulp above).
  Every comparison asserted by a theorem below therefore carries slack far
  exceeding double rounding error, and no theorem asserts a comparison at
  that boundary.
* JS strings are `String`; text comparison happens on lower-cased
  character lists (`List Char`), with `Char.toLower` standing in for
  `String.prototype.toLowerCase`.  `String.prototype.includes` is
  contiguous-substring containment, i.e. `List.IsInfix` (`<:+:`).
* JS objects used as language → text maps (`feature.title` etc.) are
  association lists `List (String × String)`; `obj[lang]` is `lookup`,
  and the falsiness of `""` and `undefined` in `a || b || ''` chains is
  modelled explicitly.
* `Array.prototype.sort` is stable (ES2019).  It is modelled by
  `List.mergeSort` with the boolean comparator corresponding to the
  source comparator `(a, b) => b.searchScore - a.searchScore`
  (`a` may stay before `b` iff `b.searchScore ≤ a.searchScore`).
* Fields of a JS object that may be `undefined` are `Option`-valued.
-/

/-- `s.toLowerCase()` on an exploded string, JS lower-casing modelled by
`Char.toLower`. -/
def lowerChars (l : List Char) : List Char := l.map Char.toLower

/-- `s.toLowerCase()` for a packed string, as a character list. -/
def jsLower (s : String) : List Char := lowerChars s.toList

/-- `s.trim()`: strip whitespace from both ends. -/
def jsTrim (l : List Char) : List Char :=
  ((l.dropWhile Char.isWhitespace).reverse.dropWhile Char.isWhitespace).reverse

namespace Utils

/-- The character-scanning loop of `Utils.fuzzySearch` (utils.js 292-300):
walk the haystack once, advancing a needle cursor on every character match;
the returned count is the final value of both `score` and `needleIndex`
(the source increments them together). -/
def subseqCount : List Char → List Char → Nat
  | [], _ => 0
  | _ :: _, [] => 0
  | c :: hs, d :: ds => if c = d then subseqCount hs ds + 1 else subseqCount hs (d :: ds)

/-- `Utils.fuzzySearch(needle, haystack)` (utils.js 277-303): `0` on a falsy
argument; `1` on a case-insensitive exact match; `0.8 - (hl - nl)/hl * 0.3`
on a substring match; otherwise `score / nl * 0.6` if the greedy scan
matched the whole needle, else `0`. -/
def fuzzySearch (needle haystack : List Char) : ℚ :=
  if needle = [] ∨ haystack = [] then 0
  else
    let n := lowerChars needle
    let h := lowerChars haystack
    if h = n then 1
    else if n <:+: h then
      8/10 - ((h.length : ℚ) - n.length) / h.length * (3/10)
    else
      let score := subseqCount h n
      if score = n.length then (score : ℚ) / n.length * (6/10) else 0

end Utils

namespace DataService

/-- A catalog category; the search engine only ever consults `id`
(`category.id.toLowerCase()` in the category-match branch). -/
structure Category where
  id : String
  deriving DecidableEq

/-- One catalog entry, with the fields the data service reads.  The
localized text fields are language → string maps; `version` may be
absent. -/
structure Feature where
  id : String
  category : String
  status : String
  title : List (String × String)
  description : List (String × String)
  details : List (String × String)
  tags : List String
  examples : List String
  version : Option String
  deriving DecidableEq

/-- `feature.title[language] || feature.title.en || ''`: the requested
language's entry if present and non-empty (`""` is falsy), else the `en`
entry, else the empty string. -/
def locField (m : List (String × String)) (language : String) : String :=
  match m.lookup language with
  | some s => if s ≠ "" then s else ((m.lookup "en").getD "")
  | none => (m.lookup "en").getD ""

/-- `getCategoryById` (data service, lines 139-141). -/
def getCategoryById (categories : List Category) (id : String) : Option Category :=
  categories.find? (fun category => category.id == id)

/-- `calculateFuzzyScore(searchTerm, title, description, tags)` (data
service, lines 233-250): `fuzzy(title)*30 + fuzzy(description)*20 +
max over tags of fuzzy(tag)*25`, kept only when above `10`. -/
def calculateFuzzyScore (searchTerm title description : List Char)
    (tags : List String) : ℚ :=
  let titleScore := Utils.fuzzySearch searchTerm title * 30
  let descScore := Utils.fuzzySearch searchTerm description * 20
  let tagScore := tags.foldl (fun acc tag => max acc (Utils.fuzzySearch searchTerm tag.toList * 25)) 0
  let fuzzyScore := titleScore + descScore + tagScore
  if fuzzyScore > 10 then fuzzyScore else 0

/-- The body of the `features.forEach` loop of `searchFeatures` (data
service, lines 154-211): the additive per-record score.  Title substring
`+100` (exact `+50` more), description substring `+80`, each tag
substring `+60` (exact `+20` more), each example substring `+40`,
details substring `+20`, category-id substring `+30`, plus the fuzzy
contribution. -/
def scoreFeature (categories : List Category) (searchTerm : List Char)
    (language : String) (feature : Feature) : ℚ :=
  let title := locField feature.title language
  let description := locField feature.description language
  let details := locField feature.details language
  let titleScore : ℚ :=
    if searchTerm <:+: jsLower title then
      100 + (if jsLower title = searchTerm then 50 else 0)
    else 0
  let descriptionScore : ℚ := if searchTerm <:+: jsLower description then 80 else 0
  let tagsScore : ℚ :=
    (feature.tags.map (fun tag =>
      if searchTerm <:+: jsLower tag then
        (60 : ℚ) + (if jsLower tag = searchTerm then 20 else 0)
      else 0)).sum
  let examplesScore : ℚ :=
    (feature.examples.map (fun ex =>
      if searchTerm <:+: jsLower ex then (40 : ℚ) else 0)).sum
  let detailsScore : ℚ := if searchTerm <:+: jsLower details then 20 else 0
  let categoryScore : ℚ :=
    match getCategoryById categories feature.category with
    | some category => if searchTerm <:+: lowerChars category.id.toList then 30 else 0
    | none => 0
  let fuzzyScore :=
    calculateFuzzyScore searchTerm title.toList description.toList feature.tags
  titleScore + descriptionScore + tagsScore + examplesScore + detailsScore +
    categoryScore + fuzzyScore

/-- The `searchResults` array built by `searchFeatures` (lines 152-219):
each feature paired with its `searchScore`, in store order, keeping only
strictly positive scores. -/
def scoredResults (categories : List Category) (features : List Feature)
    (searchTerm : List Char) (language : String) : List (Feature × ℚ) :=
  features.filterMap (fun feature =>
    let score := scoreFeature categories searchTerm language feature
    if score > 0 then some (feature, score) else none)

/-- The comparator `(a, b) => b.searchScore - a.searchScore` of the stable
`Array.prototype.sort` call, as the boolean relation "`a` may precede
`b`". -/
def sortLe {α : Type} (a b : α × ℚ) : Bool := decide (b.2 ≤ a.2)

/-- The sorted `searchResults` (line 222-223). -/
def rankedResults (categories : List Category) (features : List Feature)
    (searchTerm : List Char) (language : String) : List (Feature × ℚ) :=
  (scoredResults categories features searchTerm language).mergeSort sortLe

/-- `DataService.searchFeatures(features, query, language)` (lines
146-228): empty or whitespace-only queries return the store unchanged;
otherwise score, keep positive scores, sort by score descending (stable),
and strip the `searchScore` annotation. -/
def searchFeatures (categories : List Category) (features : List Feature)
    (query : String) (language : String) : List Feature :=
  if query = "" ∨ jsTrim query.toList = [] then features
  else
    let searchTerm := jsTrim (jsLower query)
    (rankedResults categories features searchTerm language).map Prod.fst

/-- The `filters` object consumed by `filterFeatures`; absent fields are
`none`. -/
structure Filters where
  category : Option String
  status : Option String
  tags : Option (List String)
  version : Option String
  deriving DecidableEq

/-- `DataService.filterFeatures(features, filters)` (lines 255-283): four
successive narrowing passes; a facet is skipped when absent, falsy
(`""`), or the wildcard `'all'` (for `tags`: absent or empty array). -/
def filterFeatures (features : List Feature) (filters : Filters) : List Feature :=
  let filtered := features
  let filtered :=
    match filters.category with
    | some c => if c ≠ "" ∧ c ≠ "all" then filtered.filter (fun f => f.category == c) else filtered
    | none => filtered
  let filtered :=
    match filters.status with
    | some s => if s ≠ "" ∧ s ≠ "all" then filtered.filter (fun f => f.status == s) else filtered
    | none => filtered
  let filtered :=
    match filters.tags with
    | some ts => if ts ≠ [] then filtered.filter (fun f => ts.any (fun t => f.tags.contains t)) else filtered
    | none => filtered
  let filtered :=
    match filters.version with
    | some v => if v ≠ "" ∧ v ≠ "all" then filtered.filter (fun f => f.version == some v) else filtered
    | none => filtered
  filtered

/-- The four facet guards of `filterFeatures` as one boolean predicate,
conjoined in the nesting order produced by collapsing the four filter
passes (innermost pass = category, applied first). -/
def filterPred (filters : Filters) (f : Feature) : Bool :=
  (match filters.version with
   | some v => if v ≠ "" ∧ v ≠ "all" then f.version == some v else true
   | none => true)
  && ((match filters.tags with
   | some ts => if ts ≠ [] then ts.any (fun t => f.tags.contains t) else true
   | none => true)
  && ((match filters.status with
   | some s => if s ≠ "" ∧ s ≠ "all" then f.status == s else true
   | none => true)
  && (match filters.category with
   | some c => if c ≠ "" ∧ c ≠ "all" then f.category == c else true
   | none => true)))

/-- The mutable fields of the `DataService` class relevant to search:
the record store and the readiness flag (`initialized` in the source). -/
structure State where
  features : List Feature
  categories : List Category
  loaded : Bool

/-- The `DataService` constructor (lines 6-12): empty store, not loaded. -/
def State.new : State :=
  { features := [], categories := [], loaded := false }

/-- A search call against a service instance, as the app issues it:
`dataService.searchFeatures(this.features, query, language)` with the
instance's store and categories. -/
def State.search (s : State) (query language : String) : List Feature :=
  searchFeatures s.categories s.features query language

end DataService

namespace DocumentSearch

/-- `this.maxHistorySize = 10` (documentSearch.js line 14). -/
def maxHistorySize : Nat := 10

/-- `DocumentSearch.addToSearchHistory(query)` (documentSearch.js lines
540-551): drop existing occurrences of `query`, unshift it to the front,
then slice to the capacity. -/
def addToSearchHistory (searchHistory : List String) (query : String) : List String :=
  let h := searchHistory.filter (fun term => term != query)
  let h := query :: h
  if h.length > maxHistorySize then h.take maxHistorySize else h

end DocumentSearch

/-! ## Sample data for concrete witnesses -/

/-- A minimal concrete feature whose English title is "ab", used to
instantiate hypotheses of the universally quantified theorems below. -/
def sampleFeature (i : String) : DataService.Feature :=
  { id := i, category := "cat", status := "stable",
    title := [("en", "ab")], description := [("en", "xx")],
    details := [("en", "yy")], tags := [], examples := [], version := none }

/-- A concrete feature with a given status, for the filter witnesses. -/
def statusFeature (i status : String) : DataService.Feature :=
  { id := i, category := "cat", status := status,
    title := [("en", i)], description := [("en", "")],
    details := [("en", "")], tags := [], examples := [], version := none }

/-! ## Lemmas about the greedy subsequence scan -/

open List in
theorem subseqCount_nil (h : List Char) : Utils.subseqCount h [] = 0 := by
  cases h <;> rfl

open List in
theorem subseqCount_le (h n : List Char) : Utils.subseqCount h n ≤ n.length := by
  induction h generalizing n with
  | nil => cases n <;> simp [Utils.subseqCount]
  | cons c hs ih =>
    cases n with
    | nil => simp [Utils.subseqCount]
    | cons d ds =>
      simp only [Utils.subseqCount]
      split
      · exact Nat.succ_le_succ (ih ds)
      · exact ih (d :: ds)

open List in
theorem subseqCount_eq_length_iff (h n : List Char) :
    Utils.subseqCount h n = n.length ↔ n <+ h := by
  induction h generalizing n with
  | nil =>
    cases n with
    | nil => simp [Utils.subseqCount]
    | cons d ds => simp [Utils.subseqCount]
  | cons c hs ih =>
    cases n with
    | nil => simp [Utils.subseqCount]
    | cons d ds =>
      simp only [Utils.subseqCount]
      split
      · next hcd =>
        subst hcd
        constructor
        · intro hlen
          exact (cons_sublist_cons).mpr ((ih ds).mp (by simpa using hlen))
        · intro hsub
          have := (ih ds).mpr (cons_sublist_cons.mp hsub)
          simpa using this
      · next hcd =>
        constructor
        · intro hlen
          exact ((ih (d :: ds)).mp hlen).cons c
        · intro hsub
          cases hsub with
          | cons _ htail => exact (ih (d :: ds)).mpr htail
          | cons₂ _ h2 => exact absurd rfl hcd

/-! ## Branch values of `Utils.fuzzySearch` -/

open List in
theorem fuzzySearch_of_exact {n h : List Char} (hn : n ≠ []) (hh : h ≠ [])
    (he : lowerChars h = lowerChars n) : Utils.fuzzySearch n h = 1 := by
  unfold Utils.fuzzySearch
  rw [if_neg (by simp [hn, hh]), if_pos he]

open List in
theorem fuzzySearch_of_substring {n h : List Char} (hn : n ≠ [])
    (hne : lowerChars h ≠ lowerChars n) (hi : lowerChars n <:+: lowerChars h) :
    Utils.fuzzySearch n h
      = 8/10 - ((h.length : ℚ) - n.length) / h.length * (3/10) := by
  have hh : h ≠ [] := by
    intro hcon
    subst hcon
    have := hi.sublist.length_le
    simp [lowerChars] at this
    exact hn (List.eq_nil_of_length_eq_zero (by simpa [lowerChars] using this))
  unfold Utils.fuzzySearch
  rw [if_neg (by simp [hn, hh]), if_neg hne, if_pos hi]
  simp [lowerChars]

open List in
theorem fuzzySearch_substring_lt {n h : List Char} (hn : n ≠ [])
    (hne : lowerChars h ≠ lowerChars n) (hi : lowerChars n <:+: lowerChars h) :
    1/2 < Utils.fuzzySearch n h ∧ Utils.fuzzySearch n h < 8/10 := by
  rw [fuzzySearch_of_substring hn hne hi]
  have hlen : n.length < h.length := by
    have hle : n.length ≤ h.length := by
      have := hi.sublist.length_le
      simpa [lowerChars] using this
    rcases lt_or_eq_of_le hle with hlt | heq
    · exact hlt
    · exact absurd (hi.sublist.eq_of_length (by simpa [lowerChars] using heq)).symm hne
  have hnpos : 0 < n.length := List.length_pos.mpr hn
  have ha : (0 : ℚ) < h.length := by exact_mod_cast Nat.lt_of_lt_of_le hnpos hlen.le
  have hb : (0 : ℚ) < n.length := by exact_mod_cast hnpos
  have hba : (n.length : ℚ) < h.length := by exact_mod_cast hlen
  have hq1 : ((h.length : ℚ) - n.length) / h.length < 1 :=
    (div_lt_one ha).mpr (by linarith)
  have hq0 : 0 < ((h.length : ℚ) - n.length) / h.length :=
    div_pos (by linarith) ha
  constructor
  · nlinarith
  · nlinarith

open List in
theorem fuzzySearch_of_subseq {n h : List Char}
    (hni : ¬ lowerChars n <:+: lowerChars h)
    (hs : lowerChars n <+ lowerChars h) :
    Utils.fuzzySearch n h = 6/10 := by
  have hn : n ≠ [] := by
    intro hcon
    subst hcon
    exact hni ⟨[], lowerChars h, by simp [lowerChars]⟩
  have hh : h ≠ [] := by
    intro hcon
    subst hcon
    simp [lowerChars] at hs
    exact hn (by simpa [lowerChars] using hs)
  have hne : lowerChars h ≠ lowerChars n := by
    intro hcon
    exact hni (hcon ▸ ⟨[], [], by simp⟩)
  unfold Utils.fuzzySearch
  rw [if_neg (by simp [hn, hh]), if_neg hne, if_neg hni]
  have hcount : Utils.subseqCount (lowerChars h) (lowerChars n) = (lowerChars n).length :=
    (subseqCount_eq_length_iff _ _).mpr hs
  rw [if_pos hcount, hcount]
  have hlen : ((lowerChars n).length : ℚ) ≠ 0 := by
    simp [lowerChars]
    exact hn
  field_simp

open List in
theorem fuzzySearch_of_not_subseq {n h : List Char}
    (hns : ¬ lowerChars n <+ lowerChars h) :
    Utils.fuzzySearch n h = 0 := by
  by_cases hn : n = []
  · subst hn
    exact absurd (nil_sublist _) hns
  by_cases hh : h = []
  · subst hh
    unfold Utils.fuzzySearch
    rw [if_pos (Or.inr rfl)]
  have hne : lowerChars h ≠ lowerChars n := fun hcon => hns (hcon ▸ Sublist.refl _)
  have hni : ¬ lowerChars n <:+: lowerChars h := fun hcon => hns hcon.sublist
  unfold Utils.fuzzySearch
  rw [if_neg (by simp [hn, hh]), if_neg hne, if_neg hni,
    if_neg (fun hcon => hns ((subseqCount_eq_length_iff _ _).mp hcon))]

open List in
theorem fuzzySearch_value_cases (n h : List Char) :
    Utils.fuzzySearch n h = 0 ∨ Utils.fuzzySearch n h = 1 ∨
      Utils.fuzzySearch n h = 6/10 ∨
      (1/2 < Utils.fuzzySearch n h ∧ Utils.fuzzySearch n h < 8/10) := by
  by_cases hn : n = []
  · subst hn
    left
    unfold Utils.fuzzySearch
    rw [if_pos (Or.inl rfl)]
  by_cases hh : h = []
  · subst hh
    left
    unfold Utils.fuzzySearch
    rw [if_pos (Or.inr rfl)]
  by_cases hs : lowerChars n <+ lowerChars h
  · by_cases heq : lowerChars h = lowerChars n
    · exact Or.inr (Or.inl (fuzzySearch_of_exact hn hh heq))
    · by_cases hi : lowerChars n <:+: lowerChars h
      · exact Or.inr (Or.inr (Or.inr (fuzzySearch_substring_lt hn heq hi)))
      · exact Or.inr (Or.inr (Or.inl (fuzzySearch_of_subseq hi hs)))
  · exact Or.inl (fuzzySearch_of_not_subseq hs)

open List

/-- C10: `Utils.fuzzySearch` always returns a value in `[0, 1]`; it returns
`1` on a case-insensitive exact match, a value in `(0.5, 0.8]` on a proper
substring match, at most `0.6` when the needle occurs only as a
non-contiguous subsequence, and `0` when either argument is empty or the
needle is not a subsequence of the haystack. -/
theorem fuzzySearch_range_spec (needle haystack : List Char) :
    (0 ≤ Utils.fuzzySearch needle haystack ∧ Utils.fuzzySearch needle haystack ≤ 1) ∧
    (needle ≠ [] → haystack ≠ [] → lowerChars haystack = lowerChars needle →
      Utils.fuzzySearch needle haystack = 1) ∧
    (needle ≠ [] → lowerChars haystack ≠ lowerChars needle →
      lowerChars needle <:+: lowerChars haystack →
      1/2 < Utils.fuzzySearch needle haystack ∧
        Utils.fuzzySearch needle haystack ≤ 8/10) ∧
    (¬ lowerChars needle <:+: lowerChars haystack →
      lowerChars needle <+ lowerChars haystack →
      Utils.fuzzySearch needle haystack ≤ 6/10) ∧
    ((needle = [] ∨ haystack = [] ∨ ¬ lowerChars needle <+ lowerChars haystack) →
      Utils.fuzzySearch needle haystack = 0) := by
  refine ⟨?_, ?_, ?_, ?_, ?_⟩
  · rcases fuzzySearch_value_cases needle haystack with h | h | h | h <;> first
      | (rw [h]; norm_num)
      | (constructor <;> nlinarith [h.1, h.2])
  · intro hn hh he
    exact fuzzySearch_of_exact hn hh he
  · intro hn hne hi
    have := fuzzySearch_substring_lt hn hne hi
    exact ⟨this.1, this.2.le⟩
  · intro hni hs
    rw [fuzzySearch_of_subseq hni hs]
  · intro hcase
    rcases hcase with hn | hh | hns
    · subst hn
      unfold Utils.fuzzySearch
      rw [if_pos (Or.inl rfl)]
    · subst hh
      unfold Utils.fuzzySearch
      rw [if_pos (Or.inr rfl)]
    · exact fuzzySearch_of_not_subseq hns

/-- Witness for C10: the four hypothesis-bearing clauses of
`fuzzySearch_range_spec`, each discharged at a concrete input. -/
theorem fuzzySearch_range_spec_witness :
    ("ab".toList ≠ [] ∧ "AB".toList ≠ [] ∧
      lowerChars "AB".toList = lowerChars "ab".toList ∧
      Utils.fuzzySearch "ab".toList "AB".toList = 1) ∧
    (lowerChars "xaby".toList ≠ lowerChars "ab".toList ∧
      lowerChars "ab".toList <:+: lowerChars "xaby".toList ∧
      1/2 < Utils.fuzzySearch "ab".toList "xaby".toList ∧
      Utils.fuzzySearch "ab".toList "xaby".toList ≤ 8/10) ∧
    (¬ lowerChars "ab".toList <:+: lowerChars "acb".toList ∧
      lowerChars "ab".toList <+ lowerChars "acb".toList ∧
      Utils.fuzzySearch "ab".toList "acb".toList ≤ 6/10) ∧
    (¬ lowerChars "ab".toList <+ lowerChars "ba".toList ∧
      Utils.fuzzySearch "ab".toList "ba".toList = 0) := by
  refine ⟨⟨by decide, by decide, by decide, ?_⟩, ⟨by decide, by decide, ?_⟩,
    ⟨by decide, by decide, ?_⟩, ⟨by decide, ?_⟩⟩
  · exact (fuzzySearch_range_spec "ab".toList "AB".toList).2.1
      (by decide) (by decide) (by decide)
  · exact (fuzzySearch_range_spec "ab".toList "xaby".toList).2.2.1
      (by decide) (by decide) (by decide)
  · exact (fuzzySearch_range_spec "ab".toList "acb".toList).2.2.2.1
      (by decide) (by decide)
  · exact (fuzzySearch_range_spec "ab".toList "ba".toList).2.2.2.2
      (Or.inr (Or.inr (by decide)))

/-- Counterexample to C5: the query "ab" matches "abcccccccc" as a
contiguous substring, and matches "acb" only as a non-contiguous
subsequence, yet the substring match scores 0.56, strictly below the
0.6 awarded to the pure subsequence match. -/
theorem fuzzySearch_substring_below_subseq :
    lowerChars "ab".toList <:+: lowerChars "abcccccccc".toList ∧
    lowerChars "ab".toList <+ lowerChars "acb".toList ∧
    ¬ lowerChars "ab".toList <:+: lowerChars "acb".toList ∧
    Utils.fuzzySearch "ab".toList "abcccccccc".toList
      < Utils.fuzzySearch "ab".toList "acb".toList := by
  refine ⟨by decide, by decide, by decide, ?_⟩
  have h1 : Utils.fuzzySearch "ab".toList "abcccccccc".toList = 14/25 := by
    simp +decide [Utils.fuzzySearch, lowerChars]
    norm_num
  have h2 : Utils.fuzzySearch "ab".toList "acb".toList = 3/5 := by
    simp +decide [Utils.fuzzySearch, lowerChars, Utils.subseqCount]
    norm_num
  rw [h1, h2]
  norm_num

/-- C5 (amended): an exact match always outscores a pure subsequence
match; a contiguous substring match strictly outscores a pure
subsequence match whenever the matched text is shorter than three times
the query, and scores strictly below the pure subsequence match
whenever it is longer than three times the query.  At exactly
`t1.length = 3 * q.length` the exact value of the substring expression
ties the `0.6` subsequence score while its binary64 evaluation lands
one ulp above it, so no comparison is asserted at that boundary (all
comparisons asserted here have slack of at least `0.1 / t1.length`,
far beyond double rounding error for any representable string).
Formally: if `q` matches `t1` exactly or as a substring and matches
`t2` only as a non-contiguous subsequence, then
`t1.length < 3 * q.length` implies `fuzzySearch q t1 > fuzzySearch q t2`,
and `3 * q.length < t1.length` implies
`fuzzySearch q t1 < fuzzySearch q t2` (an exact match always falls in
the first case, since then `t1.length = q.length`). -/
theorem fuzzySearch_substring_vs_subseq (q t1 t2 : List Char)
    (hq : q ≠ [])
    (h1 : lowerChars q <:+: lowerChars t1)
    (h2s : lowerChars q <+ lowerChars t2)
    (h2n : ¬ lowerChars q <:+: lowerChars t2) :
    (t1.length < 3 * q.length →
      Utils.fuzzySearch q t2 < Utils.fuzzySearch q t1) ∧
    (3 * q.length < t1.length →
      Utils.fuzzySearch q t1 < Utils.fuzzySearch q t2) := by
  rw [fuzzySearch_of_subseq h2n h2s]
  have hqlen : 0 < q.length := List.length_pos.mpr hq
  have hle : q.length ≤ t1.length := by
    have := h1.sublist.length_le
    simpa [lowerChars] using this
  have ht1 : (0 : ℚ) < (t1.length : ℚ) := by
    exact_mod_cast Nat.lt_of_lt_of_le hqlen hle
  constructor
  · intro hlt
    by_cases heq : lowerChars t1 = lowerChars q
    · have ht1ne : t1 ≠ [] := by
        intro hcon
        subst hcon
        simp [lowerChars] at heq
        exact hq heq
      rw [fuzzySearch_of_exact hq ht1ne heq]
      norm_num
    · rw [fuzzySearch_of_substring hq heq h1]
      have hq3 : (t1.length : ℚ) < 3 * q.length := by exact_mod_cast hlt
      have key : ((t1.length : ℚ) - q.length) * 3 / (t1.length * 10) < 2/10 := by
        rw [div_lt_div_iff₀ (by positivity) (by norm_num)]
        nlinarith
      rw [div_mul_div_comm]
      linarith
  · intro hlt
    have heq : lowerChars t1 ≠ lowerChars q := by
      intro hcon
      have hlen : t1.length = q.length := by
        have := congrArg List.length hcon
        simpa [lowerChars] using this
      omega
    rw [fuzzySearch_of_substring hq heq h1]
    have hq3 : (3 * q.length : ℚ) < t1.length := by exact_mod_cast hlt
    have key : (2 : ℚ)/10 < ((t1.length : ℚ) - q.length) * 3 / (t1.length * 10) := by
      rw [div_lt_div_iff₀ (by norm_num) (by positivity)]
      nlinarith
    rw [div_mul_div_comm]
    linarith

/-- Witness for the amended C5 at concrete inputs: `q = "ab"` against
`t1 = "ab"` (exact match, length below the threshold) and against
`t1 = "abccccc"` (substring match, length above the threshold), with
`t2 = "acb"` a pure subsequence match both times. -/
theorem fuzzySearch_substring_vs_subseq_witness :
    ("ab".toList ≠ [] ∧
      lowerChars "ab".toList <:+: lowerChars "ab".toList ∧
      lowerChars "ab".toList <:+: lowerChars "abccccc".toList ∧
      lowerChars "ab".toList <+ lowerChars "acb".toList ∧
      ¬ lowerChars "ab".toList <:+: lowerChars "acb".toList ∧
      "ab".toList.length < 3 * "ab".toList.length ∧
      3 * "ab".toList.length < "abccccc".toList.length) ∧
    Utils.fuzzySearch "ab".toList "acb".toList
      < Utils.fuzzySearch "ab".toList "ab".toList ∧
    Utils.fuzzySearch "ab".toList "abccccc".toList
      < Utils.fuzzySearch "ab".toList "acb".toList := by
  refine ⟨⟨by decide, by decide, by decide, by decide, by decide, by decide, by decide⟩,
    ?_, ?_⟩
  · exact (fuzzySearch_substring_vs_subseq "ab".toList "ab".toList "acb".toList
      (by decide) (by decide) (by decide) (by decide)).1 (by decide)
  · exact (fuzzySearch_substring_vs_subseq "ab".toList "abccccc".toList "acb".toList
      (by decide) (by decide) (by decide) (by decide)).2 (by decide)

/-! ## The stable sort by descending score -/

theorem sortLe_trans {α : Type} :
    ∀ a b c : α × ℚ, DataService.sortLe a b → DataService.sortLe b c →
      DataService.sortLe a c := by
  intro a b c hab hbc
  simp only [DataService.sortLe, decide_eq_true_eq] at *
  exact le_trans hbc hab

theorem sortLe_total {α : Type} :
    ∀ a b : α × ℚ, DataService.sortLe a b || DataService.sortLe b a := by
  intro a b
  simp only [DataService.sortLe, Bool.or_eq_true, decide_eq_true_eq]
  exact le_total b.2 a.2

/-- Stability of the modelled sort, stated on score classes: for every
score `c`, the subsequence of sorted entries with score `c` is exactly
the subsequence of input entries with score `c`, in input order. -/
theorem mergeSort_filter_score {α : Type} (l : List (α × ℚ)) (c : ℚ) :
    (l.mergeSort DataService.sortLe).filter (fun x => decide (x.2 = c))
      = l.filter (fun x => decide (x.2 = c)) := by
  have hmem : ∀ x ∈ l.filter (fun x => decide (x.2 = c)), x.2 = c := by
    intro x hx
    simpa using (List.mem_filter.mp hx).2
  have hpw : (l.filter (fun x => decide (x.2 = c))).Pairwise
      (fun a b => DataService.sortLe a b) := by
    apply List.pairwise_of_forall_mem_list
    intro a ha b hb
    simp only [DataService.sortLe, decide_eq_true_eq]
    rw [hmem a ha, hmem b hb]
  have hsub : l.filter (fun x => decide (x.2 = c)) <+ l.mergeSort DataService.sortLe :=
    List.sublist_mergeSort sortLe_trans sortLe_total hpw (List.filter_sublist l)
  have hsub2 : l.filter (fun x => decide (x.2 = c))
      <+ (l.mergeSort DataService.sortLe).filter (fun x => decide (x.2 = c)) := by
    have := hsub.filter (fun x => decide (x.2 = c))
    rwa [List.filter_filter, show
        (fun a => decide (a.2 = c) && decide (a.2 = c)) = fun a : α × ℚ => decide (a.2 = c)
      from funext fun a => Bool.and_self _] at this
  have hperm : (l.mergeSort DataService.sortLe).filter (fun x => decide (x.2 = c))
      ~ l.filter (fun x => decide (x.2 = c)) :=
    (List.mergeSort_perm l DataService.sortLe).filter _
  exact (hsub2.eq_of_length hperm.length_eq.symm).symm

/-- C1: for a non-empty query the result of `searchFeatures` is the
ranked sequence: scores are non-increasing along the result (any earlier
entry scores strictly higher or ties), and within each tie class the
entries appear exactly in store order (`scoredResults` preserves the
order of the input `features`). -/
theorem searchFeatures_ordering (categories : List DataService.Category)
    (features : List DataService.Feature) (query language : String)
    (hq : ¬ (query = "" ∨ jsTrim query.toList = [])) :
    DataService.searchFeatures categories features query language
      = (DataService.rankedResults categories features
          (jsTrim (jsLower query)) language).map Prod.fst
    ∧ (DataService.rankedResults categories features
          (jsTrim (jsLower query)) language).Pairwise (fun a b => b.2 ≤ a.2)
    ∧ ∀ c : ℚ,
        (DataService.rankedResults categories features
            (jsTrim (jsLower query)) language).filter (fun x => decide (x.2 = c))
          = (DataService.scoredResults categories features
              (jsTrim (jsLower query)) language).filter (fun x => decide (x.2 = c)) := by
  refine ⟨?_, ?_, ?_⟩
  · rw [DataService.searchFeatures, if_neg hq]
  · have := List.sorted_mergeSort sortLe_trans sortLe_total
      (DataService.scoredResults categories features (jsTrim (jsLower query)) language)
    refine this.imp ?_
    intro a b hab
    simpa [DataService.sortLe] using hab
  · intro c
    exact mergeSort_filter_score _ c

/-- Witness for C1, at the concrete query "ab" over a two-feature store. -/
theorem searchFeatures_ordering_witness :
    (¬ (("ab" : String) = "" ∨ jsTrim ("ab" : String).toList = [])) ∧
    (DataService.searchFeatures [] [sampleFeature "1", sampleFeature "2"] "ab" "en"
        = (DataService.rankedResults [] [sampleFeature "1", sampleFeature "2"]
            (jsTrim (jsLower "ab")) "en").map Prod.fst) ∧
    (DataService.rankedResults [] [sampleFeature "1", sampleFeature "2"]
        (jsTrim (jsLower "ab")) "en").Pairwise (fun a b => b.2 ≤ a.2) ∧
    ((DataService.rankedResults [] [sampleFeature "1", sampleFeature "2"]
          (jsTrim (jsLower "ab")) "en").filter (fun x => decide (x.2 = (180 : ℚ)))
        = (DataService.scoredResults [] [sampleFeature "1", sampleFeature "2"]
            (jsTrim (jsLower "ab")) "en").filter (fun x => decide (x.2 = (180 : ℚ)))) := by
  have h := searchFeatures_ordering [] [sampleFeature "1", sampleFeature "2"] "ab" "en"
    (by decide)
  exact ⟨by decide, h.1, h.2.1, h.2.2 180⟩

/-- Concrete evaluation of the sample search: the single sample feature
scores `180` for the query "ab" and is returned. -/
theorem sample_search_eval :
    DataService.searchFeatures [] [sampleFeature "1"] "ab" "en" = [sampleFeature "1"] := by
  have hscore : DataService.scoreFeature [] (jsTrim (jsLower "ab")) "en"
      (sampleFeature "1") = 180 := by
    norm_num +decide [DataService.scoreFeature, DataService.calculateFuzzyScore,
      DataService.locField, DataService.getCategoryById, Utils.fuzzySearch,
      sampleFeature, jsLower, lowerChars, jsTrim, Utils.subseqCount]
  rw [DataService.searchFeatures, if_neg (by decide)]
  simp only [DataService.rankedResults, DataService.scoredResults, List.filterMap]
  norm_num [hscore, List.mergeSort]

/-- C2: for a non-empty query, every record returned by `searchFeatures`
has a strictly positive total score against the query; records with score
`0` never appear. -/
theorem searchFeatures_pos_score (categories : List DataService.Category)
    (features : List DataService.Feature) (query language : String)
    (hq : ¬ (query = "" ∨ jsTrim query.toList = [])) :
    ∀ f ∈ DataService.searchFeatures categories features query language,
      0 < DataService.scoreFeature categories (jsTrim (jsLower query)) language f := by
  intro f hf
  rw [DataService.searchFeatures, if_neg hq] at hf
  simp only [DataService.rankedResults, List.mem_map, List.mem_mergeSort] at hf
  obtain ⟨p, hp, rfl⟩ := hf
  simp only [DataService.scoredResults, List.mem_filterMap] at hp
  obtain ⟨feat, _, heq⟩ := hp
  split at heq
  · next hpos =>
    cases heq
    exact hpos
  · cases heq

/-- Witness for C2 at a concrete input: the sample feature is returned
for the query "ab" and its score is strictly positive. -/
theorem searchFeatures_pos_score_witness :
    (¬ (("ab" : String) = "" ∨ jsTrim ("ab" : String).toList = [])) ∧
    sampleFeature "1" ∈ DataService.searchFeatures [] [sampleFeature "1"] "ab" "en" ∧
    0 < DataService.scoreFeature [] (jsTrim (jsLower "ab")) "en" (sampleFeature "1") := by
  have hmem : sampleFeature "1" ∈ DataService.searchFeatures [] [sampleFeature "1"] "ab" "en" := by
    rw [sample_search_eval]
    exact List.mem_singleton_self _
  exact ⟨by decide, hmem,
    searchFeatures_pos_score [] [sampleFeature "1"] "ab" "en" (by decide) _ hmem⟩

/-- C9: the `searchScore` annotation is stripped before returning: every
record in the result of `searchFeatures` is literally one of the input
store records (the same `Feature` value, field for field). -/
theorem searchFeatures_returns_store_records (categories : List DataService.Category)
    (features : List DataService.Feature) (query language : String)
    (hq : ¬ (query = "" ∨ jsTrim query.toList = [])) :
    ∀ f ∈ DataService.searchFeatures categories features query language,
      f ∈ features := by
  intro f hf
  rw [DataService.searchFeatures, if_neg hq] at hf
  simp only [DataService.rankedResults, List.mem_map, List.mem_mergeSort] at hf
  obtain ⟨p, hp, rfl⟩ := hf
  simp only [DataService.scoredResults, List.mem_filterMap] at hp
  obtain ⟨feat, hfeat, heq⟩ := hp
  split at heq
  · cases heq
    exact hfeat
  · cases heq

/-- Witness for C9 at a concrete input: the record returned for the
query "ab" is the store record itself. -/
theorem searchFeatures_returns_store_records_witness :
    (¬ (("ab" : String) = "" ∨ jsTrim ("ab" : String).toList = [])) ∧
    sampleFeature "1" ∈ DataService.searchFeatures [] [sampleFeature "1"] "ab" "en" ∧
    sampleFeature "1" ∈ [sampleFeature "1"] := by
  have hmem : sampleFeature "1" ∈ DataService.searchFeatures [] [sampleFeature "1"] "ab" "en" := by
    rw [sample_search_eval]
    exact List.mem_singleton_self _
  exact ⟨by decide, hmem,
    searchFeatures_returns_store_records [] [sampleFeature "1"] "ab" "en" (by decide) _ hmem⟩

/-- C3: an empty or whitespace-only query returns the input records
unchanged, in store order, with no scoring involved. -/
theorem searchFeatures_empty_query (categories : List DataService.Category)
    (features : List DataService.Feature) (query language : String)
    (hq : query = "" ∨ jsTrim query.toList = []) :
    DataService.searchFeatures categories features query language = features := by
  rw [DataService.searchFeatures, if_pos hq]

/-- Witness for C3 at a concrete whitespace-only query. -/
theorem searchFeatures_empty_query_witness :
    ((("  " : String) = "" ∨ jsTrim ("  " : String).toList = [])) ∧
    DataService.searchFeatures [] [sampleFeature "1"] "  " "en" = [sampleFeature "1"] :=
  ⟨by decide, searchFeatures_empty_query [] [sampleFeature "1"] "  " "en" (by decide)⟩

/-- Counterexample to C4: a freshly constructed, unloaded `DataService`
does not refuse to search and signals no error of any kind (there is no
`NotReadyError` in the code base); a search against it returns an
ordinary (empty) result computed over the empty store. -/
theorem searchFeatures_unloaded_counterexample :
    DataService.State.new.loaded = false ∧
    DataService.State.new.search "claude" "en" = [] := by
  refine ⟨rfl, ?_⟩
  have h : DataService.State.new.search "claude" "en"
      = DataService.searchFeatures [] [] "claude" "en" := rfl
  rw [h, DataService.searchFeatures, if_neg (by decide)]
  simp [DataService.rankedResults, DataService.scoredResults]

/-- C4 (amended): `searchFeatures` performs no readiness check.  Before
the catalog has loaded, the store is empty and every search call — with
any query and language — returns an ordinary result computed over the
empty store (the empty list), rather than signalling a `NotReadyError`. -/
theorem search_unloaded_returns_empty (query language : String) :
    DataService.State.new.search query language = [] := by
  have h : DataService.State.new.search query language
      = DataService.searchFeatures [] [] query language := rfl
  rw [h]
  by_cases hq : query = "" ∨ jsTrim query.toList = []
  · rw [DataService.searchFeatures, if_pos hq]
  · rw [DataService.searchFeatures, if_neg hq]
    simp [DataService.rankedResults, DataService.scoredResults]

/-- `filterFeatures` is a single `filter` by the conjunction of its four
facet guards. -/
theorem filterFeatures_eq_filter (features : List DataService.Feature)
    (filters : DataService.Filters) :
    DataService.filterFeatures features filters
      = features.filter (DataService.filterPred filters) := by
  rcases filters with ⟨oc, os, ot, ov⟩
  unfold DataService.filterFeatures DataService.filterPred
  cases oc <;> cases os <;> cases ot <;> cases ov <;> dsimp only <;>
    (try split_ifs) <;> simp_all [List.filter_filter]

/-- C7: `filterFeatures` is idempotent — applying the same filter state
twice returns exactly the sequence produced by applying it once. -/
theorem filterFeatures_idem (features : List DataService.Feature)
    (filters : DataService.Filters) :
    DataService.filterFeatures (DataService.filterFeatures features filters) filters
      = DataService.filterFeatures features filters := by
  rw [filterFeatures_eq_filter, filterFeatures_eq_filter, List.filter_filter]
  simp [Bool.and_self]

/-- C6: for a filter state carrying only the `category` and `status`
facets (the spec's `FilterState`; no tag or version facet present, and
facet values are facet ids or "all", never the empty string),
`filterFeatures` keeps exactly the records that satisfy every
non-wildcard facet, composed by logical AND, in store order. -/
theorem filterFeatures_facets (features : List DataService.Feature)
    (filters : DataService.Filters)
    (htags : filters.tags = none) (hver : filters.version = none)
    (hcat : filters.category ≠ some "") (hstat : filters.status ≠ some "") :
    DataService.filterFeatures features filters
      = features.filter (fun f =>
          (match filters.category with
           | some c => decide (c = "all") || (f.category == c)
           | none => true)
          && (match filters.status with
           | some s => decide (s = "all") || (f.status == s)
           | none => true)) := by
  rw [filterFeatures_eq_filter]
  apply List.filter_congr
  intro f _
  rcases filters with ⟨oc, os, ot, ov⟩
  subst htags hver
  unfold DataService.filterPred
  dsimp only
  cases oc with
  | none =>
    cases os with
    | none => rfl
    | some s =>
      have hs : s ≠ "" := fun hcon => hstat (by rw [hcon])
      by_cases hall : s = "all" <;> simp [hall, hs]
  | some c =>
    have hc : c ≠ "" := fun hcon => hcat (by rw [hcon])
    cases os with
    | none =>
      by_cases hall : c = "all" <;> simp [hall, hc]
    | some s =>
      have hs : s ≠ "" := fun hcon => hstat (by rw [hcon])
      by_cases hall : c = "all" <;> by_cases hall2 : s = "all" <;>
        simp [hall, hall2, hc, hs, Bool.and_comm]

/-- Witness for C6, reproducing the spec scenario:
`applyFilters([r1(status=stable), r2(status=beta)], status := "beta")`
keeps exactly `r2`. -/
theorem filterFeatures_facets_witness :
    ((⟨none, some "beta", none, none⟩ : DataService.Filters).tags = none ∧
     (⟨none, some "beta", none, none⟩ : DataService.Filters).version = none ∧
     (⟨none, some "beta", none, none⟩ : DataService.Filters).category ≠ some "" ∧
     (⟨none, some "beta", none, none⟩ : DataService.Filters).status ≠ some "") ∧
    DataService.filterFeatures [statusFeature "r1" "stable", statusFeature "r2" "beta"]
        ⟨none, some "beta", none, none⟩
      = [statusFeature "r1" "stable", statusFeature "r2" "beta"].filter (fun f =>
          (match (⟨none, some "beta", none, none⟩ : DataService.Filters).category with
           | some c => decide (c = "all") || (f.category == c)
           | none => true)
          && (match (⟨none, some "beta", none, none⟩ : DataService.Filters).status with
           | some s => decide (s = "all") || (f.status == s)
           | none => true)) ∧
    DataService.filterFeatures [statusFeature "r1" "stable", statusFeature "r2" "beta"]
        ⟨none, some "beta", none, none⟩
      = [statusFeature "r2" "beta"] := by
  refine ⟨⟨rfl, rfl, by decide, by decide⟩, ?_, ?_⟩
  · exact filterFeatures_facets _ _ rfl rfl (by decide) (by decide)
  · decide

/-- C8: the search history is a most-recent-first bounded list with
capacity 10.  A push always yields at most 10 entries; the result is the
pushed query in front of the previous entries with any old occurrence of
the query removed, truncated to the 9 most recent survivors (so the
oldest entry is dropped when the capacity would be exceeded); and from
the empty history, pushing "a", "b", "a", "c" in order yields
["c", "a", "b"]. -/
theorem addToSearchHistory_spec (history : List String) (query : String) :
    (DocumentSearch.addToSearchHistory history query).length
        ≤ DocumentSearch.maxHistorySize ∧
    DocumentSearch.addToSearchHistory history query
      = query :: (history.filter (fun term => term != query)).take
          (DocumentSearch.maxHistorySize - 1) ∧
    DocumentSearch.addToSearchHistory (DocumentSearch.addToSearchHistory
        (DocumentSearch.addToSearchHistory
          (DocumentSearch.addToSearchHistory [] "a") "b") "a") "c"
      = ["c", "a", "b"] := by
  refine ⟨?_, ?_, by decide⟩
  · unfold DocumentSearch.addToSearchHistory DocumentSearch.maxHistorySize
    dsimp only
    split
    · simp
    · next hlen =>
      simp only [List.length_cons, Nat.not_lt] at hlen
      simp only [List.length_cons]
      omega
  · unfold DocumentSearch.addToSearchHistory DocumentSearch.maxHistorySize
    dsimp only
    split
    · next hlen =>
      rfl
    · next hlen =>
      simp only [List.length_cons, Nat.not_lt] at hlen
      rw [List.take_of_length_le (by omega)]
